import Mathlib

/-!
Verification of the Cody streaming-response pipeline.

Shallow embedding of the repository's core: the incremental code-block
extractor (`CodeExtractor` in src/utils/config.ts), the conversation
history updates of `CodingAgent.send` / `CodingAgent.sendStream`
(src/core/agent.ts), the SSE frame decoder loop of `APIClient.chatStream`
(src/core/agent.ts), `runCommand` (src/core/tools.ts) and
`resolveCommand` (the alias module).

JavaScript strings are embedded as `List Char`, so that every string
operation the source uses (slice, indexOf, regex scan, split, join,
trim) is a structurally recursive, kernel-computable Lean function.
-/

namespace Cody

/-- A JavaScript string, embedded as a list of characters. -/
abbrev Str := List Char

/-- A character matched by the JavaScript regex class `\w`:
ASCII letters, digits, and underscore. -/
def isWordChar (c : Char) : Bool := c.isAlphanum || c == '_'

/-- JavaScript `String.prototype.trim`: strip leading and trailing
whitespace. (The source only ever trims ASCII whitespace — spaces,
tabs, newlines — which `Char.isWhitespace` covers.) -/
def trimL (s : Str) : Str :=
  ((s.dropWhile Char.isWhitespace).reverse.dropWhile Char.isWhitespace).reverse

/-- The triple-backtick fence delimiter. -/
def fenceStr : Str := ['`', '`', '`']

/-- First regex component `` ``` ``: strip the literal triple backtick
at the head, or fail. -/
def afterFence : Str → Option Str
  | '`' :: '`' :: '`' :: r => some r
  | _ => none

/--
Second regex component `(\w+):` — greedy `\w+` followed by a colon.
Since a colon is not a word character, backtracking never shortens the
greedy run: the unique possible match is the maximal word-character
prefix, which must be non-empty and be followed by `:`. Returns the tag
and the text after the colon.
-/
def readTag (r1 : Str) : Option (Str × Str) :=
  match r1.dropWhile isWordChar with
  | ':' :: r2 =>
    if (r1.takeWhile isWordChar).isEmpty then none
    else some (r1.takeWhile isWordChar, r2)
  | _ => none

/--
Third regex component `([^\n]+)\n` — greedy `[^\n]+` followed by a
newline. The greedy run is exactly the text up to the first newline,
which must be non-empty. Returns the path and the text after the
newline.
-/
def readPath (r2 : Str) : Option (Str × Str) :=
  match r2.dropWhile (fun c => !(c == '\n')) with
  | '\n' :: r3 =>
    if (r2.takeWhile (fun c => !(c == '\n'))).isEmpty then none
    else some (r2.takeWhile (fun c => !(c == '\n')), r3)
  | _ => none

/--
Attempt to match the opening-fence regex `/```(\w+):([^\n]+)\n/` at the
head of `s` (the anchored version of one regex-engine start position).
Returns `(tag, path, rest)` on success, where `rest` is everything
after the matched text; the match at a fixed start position is
deterministic.
-/
def matchOpenAt (s : Str) : Option (Str × Str × Str) :=
  match afterFence s with
  | none => none
  | some r1 =>
    match readTag r1 with
    | none => none
    | some (tag, r2) =>
      match readPath r2 with
      | none => none
      | some (p, r3) => some (tag, p, r3)

/--
Leftmost match of the opening-fence regex in `s`, as executed by
`this.buffer.match(/```(\w+):([^\n]+)\n/)` in `CodeExtractor.process`.
Returns `(pre, tag, path, rest)`: the text before the match, the two
capture groups, and the text after the match. (In the source the buffer
is cut with `indexOf(m[0]) + m[0].length`; since the regex engine
returns the leftmost match and the pattern is context-free, the first
occurrence of the matched string is the match itself, so cutting at the
match end is faithful.)
-/
def findOpen : Str → Option (Str × Str × Str × Str)
  | [] => none
  | c :: cs =>
    match matchOpenAt (c :: cs) with
    | some (tag, p, rest) => some ([], tag, p, rest)
    | none =>
      match findOpen cs with
      | some (pre, tag, p, rest) => some (c :: pre, tag, p, rest)
      | none => none

/--
`buffer.indexOf("```")` together with the two slices the source takes
around it: returns `(before, after)` where `before` is the text before
the first triple backtick and `after` the text after it.
-/
def findTriple : Str → Option (Str × Str)
  | '`' :: '`' :: '`' :: r => some ([], r)
  | c :: cs =>
    match findTriple cs with
    | some (pre, rest) => some (c :: pre, rest)
    | none => none
  | [] => none

/-- JavaScript `s.slice(-n)`: the last `n` characters (all of `s` when
`s` is shorter). -/
def takeRightL (n : Nat) (s : Str) : Str := s.drop (s.length - n)

/-- JavaScript `s.slice(0, -n)`: everything except the last `n`
characters. -/
def dropRightL (n : Nat) (s : Str) : Str := s.take (s.length - n)

/--
One extracted file instruction, interface `PendingFile` of
src/utils/config.ts. The source also stores a `fullPath` field computed
by the external Node `path` module (`path.join(dir, filename)` /
`path.isAbsolute`); it is derived from `filename` and the session
directory and is not modelled.
-/
structure PendingFile where
  filename : Str
  content : Str
deriving DecidableEq, Repr

/-- The mutable fields of `class CodeExtractor`: the carry-buffer, the
scanning/in-block flag, the captured target path, and the accumulated
block content. -/
structure ExtractorState where
  buffer : Str
  inBlock : Bool
  filename : Str
  code : Str
deriving DecidableEq, Repr

/-- A freshly constructed `CodeExtractor`. -/
def initExtractor : ExtractorState := ⟨[], false, [], []⟩

/--
`CodeExtractor.process(chunk)` (src/utils/config.ts lines 872–907),
as a pure state transformer returning the new state together with the
list of `PendingFile` records pushed onto the global `pendingFiles`
array during the call (at most one).
-/
def process (st : ExtractorState) (chunk : Str) : ExtractorState × List PendingFile :=
  let buf := st.buffer ++ chunk
  if st.inBlock then
    match findTriple buf with
    | some (before, after) =>
      ({ buffer := after, inBlock := false, filename := st.filename,
         code := st.code ++ before },
       [⟨st.filename, trimL (st.code ++ before)⟩])
    | none =>
      if buf.length > 10 then
        ({ st with buffer := takeRightL 10 buf, code := st.code ++ dropRightL 10 buf }, [])
      else
        ({ st with buffer := buf }, [])
  else
    match findOpen buf with
    | some (_pre, _tag, p, rest) =>
      ({ buffer := rest, inBlock := true, filename := trimL p, code := [] }, [])
    | none =>
      ({ st with buffer := if buf.length > 100 then takeRightL 100 buf else buf }, [])

/--
`CodeExtractor.flush()` (src/utils/config.ts lines 909–922): emits one
instruction when the extractor is in-block and `this.code` is a
non-empty (truthy) string, then resets every field.
-/
def flush (st : ExtractorState) : ExtractorState × List PendingFile :=
  (initExtractor,
   if st.inBlock && !st.code.isEmpty then
     [⟨st.filename, trimL (st.code ++ st.buffer)⟩]
   else [])

/-- Feed a list of chunks through `process` from a fresh extractor,
collecting emissions in order. -/
def runProcess (chunks : List Str) : ExtractorState × List PendingFile :=
  chunks.foldl (fun acc chunk =>
    ((process acc.1 chunk).1, acc.2 ++ (process acc.1 chunk).2))
    (initExtractor, [])

/-- The complete per-turn extraction protocol of `sendMessage`
(src/utils/config.ts lines 1017–1031): process every chunk, then flush. -/
def runExtract (chunks : List Str) : List PendingFile :=
  (runProcess chunks).2 ++ (flush (runProcess chunks).1).2

/--
The per-turn pipeline of `sendMessage`: every chunk is written to the
display (`process.stdout.write(chunk)`) and then fed to the extractor.
Returns the concatenated display text and the ordered emitted
instructions.
-/
def runPipeline (chunks : List Str) : Str × List PendingFile :=
  (chunks.flatten, runExtract chunks)

/--
Modelled from the spec's words, for comparison with `flush` (claim C2):
the end-of-stream flush first appends the remaining carry-buffer to the
accumulated content and then, whenever any content was accumulated,
emits one instruction from the combined text.
-/
def flushSpec (st : ExtractorState) : List PendingFile :=
  if st.inBlock && !(st.code ++ st.buffer).isEmpty then
    [⟨st.filename, trimL (st.code ++ st.buffer)⟩]
  else []

/--
Declarative characterisation of the opening fence actually recognised by
the source regex `/```(\w+):([^\n]+)\n/`: three backticks, a non-empty
run of word characters, a colon, a non-empty newline-free path, and a
newline, occurring anywhere in the text.
-/
def HasOpenFence (s : Str) : Prop :=
  ∃ pre tag p post,
    s = pre ++ fenceStr ++ tag ++ ':' :: p ++ '\n' :: post
    ∧ tag ≠ [] ∧ (∀ c ∈ tag, isWordChar c = true)
    ∧ p ≠ [] ∧ '\n' ∉ p

/--
Modelled from the claim's words (C4), for comparison with
`HasOpenFence`: the same shape but with a language tag made of arbitrary
non-whitespace characters rather than word characters.
-/
def SpecOpenFence (s : Str) : Prop :=
  ∃ pre tag p post,
    s = pre ++ fenceStr ++ tag ++ ':' :: p ++ '\n' :: post
    ∧ tag ≠ [] ∧ (∀ c ∈ tag, c.isWhitespace = false)
    ∧ p ≠ [] ∧ '\n' ∉ p

/-! ## Conversation history: `CodingAgent.send` and `CodingAgent.sendStream`
(src/core/agent.ts) -/

/-- Message roles of the `Message` interface in src/core/api. -/
inductive Role where
  | system
  | user
  | assistant
deriving DecidableEq, Repr

/-- The `Message` record: a role together with its text content. -/
structure Msg where
  role : Role
  content : String
deriving DecidableEq, Repr

/--
`CodingAgent.send` (src/core/agent.ts lines 66–81), as a function of
the outcome of the awaited `client.chat` call: the user message is
pushed, then on success the assistant reply is pushed, while on an
exception the `catch` block pops the just-pushed user message and
re-throws. Returns the new history and the propagated result.
-/
def send (hist : List Msg) (userMessage : String) (outcome : Except String String) :
    List Msg × Except String String :=
  let h1 := hist ++ [⟨Role.user, userMessage⟩]
  match outcome with
  | Except.ok response => (h1 ++ [⟨Role.assistant, response⟩], Except.ok response)
  | Except.error e => (h1.dropLast, Except.error e)

/--
`CodingAgent.sendStream` (src/core/agent.ts lines 83–111), as a
function of the delta chunks received and whether the stream completed
cleanly (`success`). In the `finally` block: when successful and the
concatenated response is truthy (non-empty) the assistant message is
pushed; when unsuccessful the just-pushed user message is spliced out
(`indexOf` compares by object identity, and the freshly created user
message object sits at the end of the history, so the splice removes
the last element).
-/
def sendStream (hist : List Msg) (userMessage : String) (chunks : List String)
    (success : Bool) : List Msg :=
  let h1 := hist ++ [⟨Role.user, userMessage⟩]
  let fullResponse := String.join chunks
  if success then
    if fullResponse = "" then h1 else h1 ++ [⟨Role.assistant, fullResponse⟩]
  else
    h1.dropLast

/-! ## SSE frame decoding: `APIClient.chatStream` (src/core/agent.ts) -/

/-- The `data: ` line prefix recognised by the stream loop. -/
def dataPrefixStr : Str := "data: ".toList

/-- The literal end-of-stream sentinel `[DONE]`. -/
def doneSentinel : Str := "[DONE]".toList

/--
The per-line loop of `APIClient.chatStream` (src/core/agent.ts lines
254–267) over a list of complete lines. `parse` abstracts
`JSON.parse` plus the optional chain `choices?.[0]?.delta?.content`:
`none` models a thrown parse exception (caught and skipped), and
`some c` the optionally-extracted content field. A non-empty (truthy)
content is yielded. Returns the yielded deltas in order and whether the
`[DONE]` sentinel ended the stream.
-/
def decodeLines (parse : Str → Option (Option Str)) : List Str → List Str × Bool
  | [] => ([], false)
  | line :: rest =>
    if dataPrefixStr.isPrefixOf line then
      let data := line.drop 6
      if data = doneSentinel then ([], true)
      else
        match parse data with
        | some (some c) =>
          if c.isEmpty then decodeLines parse rest
          else (c :: (decodeLines parse rest).1, (decodeLines parse rest).2)
        | _ => decodeLines parse rest
    else decodeLines parse rest

/--
The chunk-reassembly loop of `APIClient.chatStream` (lines 246–268):
each raw fragment is appended to a line buffer, the buffer is split on
newlines, the trailing incomplete line is retained, and the complete
lines are decoded; a `[DONE]` sentinel stops all further reads.
`splitOnChar` below mirrors JavaScript `String.prototype.split` with a
single-character separator.
-/
def splitOnChar (sep : Char) : Str → List Str
  | [] => [[]]
  | c :: cs =>
    match splitOnChar sep cs with
    | [] => [[]]
    | h :: t => if c == sep then [] :: h :: t else (c :: h) :: t

/-- JavaScript `Array.prototype.join` with a single-character
separator. -/
def joinChar (sep : Char) : List Str → Str
  | [] => []
  | [x] => x
  | x :: xs => x ++ sep :: joinChar sep xs

/-- The fragment-level decoding loop of `chatStream`; see
`decodeLines`. -/
def decodeFrags (parse : Str → Option (Option Str)) (buf : Str) : List Str → List Str
  | [] => []
  | f :: fs =>
    let parts := splitOnChar '\n' (buf ++ f)
    let r := decodeLines parse parts.dropLast
    if r.2 then r.1 else r.1 ++ decodeFrags parse (parts.getLastD []) fs

/-- `APIClient.chatStream` as a whole: decode a list of raw fragments
starting from an empty line buffer. -/
def chatStream (parse : Str → Option (Option Str)) (frags : List Str) : List Str :=
  decodeFrags parse [] frags

/-! ## `runCommand` (src/core/tools.ts) -/

/--
The first settled event of the `runCommand` promise
(src/core/tools.ts lines 93–148): the child process closed with an
exit code (`null` when killed by a signal) after accumulating stdout
and stderr; or spawning failed (the `error` event or a synchronous
`spawn` throw); or the 30-second timer fired first with the stdout
accumulated so far. A JavaScript promise settles with the first
`resolve` call, so the result is a function of this first event.
-/
inductive ProcEvent where
  | close (stdout stderr : String) (code : Option Int)
  | spawnFailure (message : String)
  | timedOut (stdout : String)
deriving DecidableEq, Repr

/-- The `ToolResult` interface of src/core/tools.ts. -/
structure ToolResult where
  success : Bool
  output : String
  error : Option String
deriving DecidableEq, Repr

/--
`runCommand` (src/core/tools.ts lines 93–148): the resolved
`ToolResult` for each possible first event. Every branch resolves; the
promise executor never rejects.
-/
def runCommand : ProcEvent → ToolResult
  | ProcEvent.close out err code =>
    { success := code == some 0,
      output := if out = "" then "(no output)" else out,
      error := if err = "" then none else some err }
  | ProcEvent.spawnFailure msg =>
    { success := false, output := "", error := some ("Failed to run command: " ++ msg) }
  | ProcEvent.timedOut out =>
    { success := false, output := out, error := some ("Command timed out (30s)") }

/-! ## Command-alias resolution (the alias module) -/

/-- The `commandAliases` table, as an association list in source
order. -/
def commandAliases : List (Str × Str) :=
  [ ("/q".toList, "/quit".toList), ("/e".toList, "/exit".toList),
    ("/quit".toList, "/exit".toList),
    ("/h".toList, "/help".toList), ("/?".toList, "/help".toList),
    ("/c".toList, "/clear".toList), ("/cls".toList, "/clear".toList),
    ("/hist".toList, "/history".toList),
    ("/cfg".toList, "/config".toList), ("/settings".toList, "/config".toList),
    ("/l".toList, "/list".toList), ("/ls".toList, "/list".toList),
    ("/dir".toList, "/list".toList),
    ("/s".toList, "/save".toList), ("/w".toList, "/save".toList),
    ("/write".toList, "/save".toList),
    ("/r".toList, "/read".toList), ("/cat".toList, "/read".toList),
    ("/show".toList, "/read".toList),
    ("/d".toList, "/delete".toList), ("/del".toList, "/delete".toList),
    ("/rm".toList, "/delete".toList),
    ("/x".toList, "/run".toList), ("/exec".toList, "/run".toList),
    ("/sh".toList, "/shell".toList), ("/$".toList, "/shell".toList),
    ("/cmd".toList, "/shell".toList) ]

/-- JavaScript `String.prototype.toLowerCase` (the aliases are ASCII). -/
def toLowerL (s : Str) : Str := s.map Char.toLower

/--
`resolveCommand` (the alias module, lines 47–57): split the input on
the space character, lowercase the first field, look it up in the alias
table (all alias values are non-empty, so the JavaScript truthiness
test is a successful lookup), replace the first field on a hit and
rejoin with spaces; otherwise return the input unchanged.
-/
def resolveCommand (input : Str) : Str :=
  let parts := splitOnChar ' ' input
  match parts with
  | [] => input
  | c0 :: rest =>
    match commandAliases.lookup (toLowerL c0) with
    | some full => joinChar ' ' (full :: rest)
    | none => input

/--
Modelled from the claim's words (C10), for comparison with
`resolveCommand`: take the input's first whitespace-delimited token,
lowercase it, look it up, and on a hit replace that token with the full
command, keeping the remainder of the input unchanged.
-/
def resolveCommandSpec (input : Str) : Str :=
  let tok := input.takeWhile (fun c => !c.isWhitespace)
  let rest := input.dropWhile (fun c => !c.isWhitespace)
  match commandAliases.lookup (toLowerL tok) with
  | some full => full ++ rest
  | none => input

/-! ## Helper lemmas -/

theorem length_takeRightL (n : Nat) (s : Str) : (takeRightL n s).length ≤ n := by
  simp only [takeRightL, List.length_drop]
  omega

/-! ## Claims -/

/--
Claim C1 (code bug): chunk-invariance of the extractor fails. The same
complete response text, delivered as one chunk or as two, produces
different instruction lists: `process` performs at most one state
transition per call, so a single chunk containing both the opening and
the closing fence leaves the closing fence unconsumed in the
carry-buffer, and `flush` then drops the block because its accumulated
`code` field is still empty. The concatenated display text is the same
for both chunkings, as the claim demands.
-/
theorem C1_chunk_variance :
    (["```a:f\nx```".toList] : List Str).flatten
      = (["```a:f\nx".toList, "```".toList] : List Str).flatten
    ∧ runExtract ["```a:f\nx```".toList] = []
    ∧ runExtract ["```a:f\nx".toList, "```".toList] = [⟨"f".toList, "x".toList⟩] := by
  decide

/--
Claim C2, counterexample: after a block is opened and its content is
still entirely inside the carry-buffer, the claim (append the
carry-buffer, then emit whenever any content was accumulated — the
behaviour of `flushSpec`) demands one instruction with content "x",
but `flush` emits nothing because it tests `this.code` before appending
the carry-buffer.
-/
theorem C2_counterexample :
    (process initExtractor ("```a:f\nx".toList)).1.inBlock = true
    ∧ flushSpec (process initExtractor ("```a:f\nx".toList)).1
        = [⟨"f".toList, "x".toList⟩]
    ∧ (flush (process initExtractor ("```a:f\nx".toList)).1).2 = [] := by
  decide

/--
Claim C2, amended: if the stream ends while InBlock, `flush` emits
exactly one instruction — whose content is the accumulated content plus
the remaining carry-buffer, whitespace-trimmed, and whose path is the
captured target path — if and only if the content accumulated before
the carry-buffer is appended (`code`) is non-empty; a block whose
content still sits entirely in the carry-buffer is dropped. Afterwards
the extractor is reset to Scanning with empty buffers.
-/
theorem C2_flush_amended (st : ExtractorState) (h : st.inBlock = true) :
    (flush st).1 = initExtractor
    ∧ (st.code ≠ [] → (flush st).2 = [⟨st.filename, trimL (st.code ++ st.buffer)⟩])
    ∧ (st.code = [] → (flush st).2 = []) := by
  refine ⟨rfl, fun hc => ?_, fun hc => ?_⟩
  · simp [flush, h, hc]
  · simp [flush, h, hc]

/-- Witness for C2: a concrete in-block state with accumulated content
"body" and carry-buffer "buf" flushes to a single instruction with
content "bodybuf". -/
theorem C2_flush_witness :
    (flush ⟨"buf".toList, true, "f".toList, "body".toList⟩).2
      = [⟨"f".toList, "bodybuf".toList⟩] :=
  ((C2_flush_amended ⟨"buf".toList, true, "f".toList, "body".toList⟩ rfl).2.1
    (by decide)).trans (by decide)

/--
Claim C3: rollback atomicity of a failed turn. If the non-streaming
`send` receives an exception from the client, or the streamed sequence
of `sendStream` ends without clean completion, the conversation history
afterwards is exactly the history from before the user message was
appended — no user message and no partial assistant text remain.
-/
theorem C3_rollback (hist : List Msg) (u e : String) (chunks : List String) :
    (send hist u (Except.error e)).1 = hist
    ∧ sendStream hist u chunks false = hist := by
  constructor
  · simp [send]
  · simp [sendStream]

/--
Claim C5, counterexample: for the three-chunk scenario the pipeline
emits exactly one instruction {path "app.py", content "print(1)"} as
claimed, but the display text is the full concatenated stream including
the fence markup (`sendMessage` writes every chunk to stdout before
feeding the extractor), not the claimed fence-absorbed text
"Sure, here:\nDone.".
-/
theorem C5_counterexample :
    (runPipeline ["Sure, here:\n```py".toList, "thon:app.py\nprint(1)\n".toList,
        "```\nDone.".toList]).2
      = [⟨"app.py".toList, "print(1)".toList⟩]
    ∧ (runPipeline ["Sure, here:\n```py".toList, "thon:app.py\nprint(1)\n".toList,
        "```\nDone.".toList]).1
      ≠ "Sure, here:\nDone.".toList := by
  decide

/--
Claim C5, amended: for the three-chunk scenario the pipeline produces
display text equal to the full concatenated stream (fence markup
included, since every chunk is echoed before extraction) and emits
exactly one instruction with path "app.py" and content "print(1)".
-/
theorem C5_pipeline_amended :
    runPipeline ["Sure, here:\n```py".toList, "thon:app.py\nprint(1)\n".toList,
        "```\nDone.".toList]
      = ("Sure, here:\n```python:app.py\nprint(1)\n```\nDone.".toList,
         [⟨"app.py".toList, "print(1)".toList⟩]) := by
  decide

/--
Claim C6: bounded carry-buffer invariant. After any `process` call that
does not change the extractor's mode, the carry-buffer holds at most
100 characters while Scanning and at most 10 characters while InBlock.
-/
theorem C6_bounded_carry (st : ExtractorState) (chunk : Str)
    (h : (process st chunk).1.inBlock = st.inBlock) :
    (st.inBlock = false → (process st chunk).1.buffer.length ≤ 100)
    ∧ (st.inBlock = true → (process st chunk).1.buffer.length ≤ 10) := by
  constructor
  · intro hb
    cases hfo : findOpen (st.buffer ++ chunk) with
    | some q =>
      exfalso
      obtain ⟨pre, tag, p, rest⟩ := q
      rw [hb] at h
      simp [process, hb, hfo] at h
    | none =>
      simp only [process, hb, Bool.false_eq_true, if_false, hfo]
      split
      · exact length_takeRightL _ _
      · next hlen =>
        simp only [List.length_append] at hlen ⊢
        omega
  · intro hb
    cases hft : findTriple (st.buffer ++ chunk) with
    | some q =>
      exfalso
      obtain ⟨before, after⟩ := q
      rw [hb] at h
      simp [process, hb, hft] at h
    | none =>
      simp only [process, hb, if_true, hft]
      split
      · exact length_takeRightL _ _
      · next hlen =>
        simp only [List.length_append] at hlen ⊢
        omega

/-- Witness for C6: a Scanning-state `process` call on a short chunk
keeps the mode and leaves the buffer within the 100-character bound. -/
theorem C6_witness :
    (process initExtractor ("hello".toList)).1.inBlock = initExtractor.inBlock
    ∧ (process initExtractor ("hello".toList)).1.buffer.length ≤ 100 :=
  ⟨by decide, (C6_bounded_carry initExtractor ("hello".toList) (by decide)).1 rfl⟩

/--
Claim C8: process-run totality. `runCommand` resolves with a
`ToolResult` for every possible first event: on a normal close, success
holds exactly when the exit code is 0; on a spawn failure or on the
hard timeout it resolves (never rejects) with success = false and an
error message.
-/
theorem C8_runCommand_total (out err m : String) (code : Option Int) :
    ((runCommand (ProcEvent.close out err code)).success = true ↔ code = some 0)
    ∧ (runCommand (ProcEvent.spawnFailure m)).success = false
    ∧ (runCommand (ProcEvent.spawnFailure m)).error
        = some ("Failed to run command: " ++ m)
    ∧ (runCommand (ProcEvent.timedOut out)).success = false
    ∧ (runCommand (ProcEvent.timedOut out)).error = some ("Command timed out (30s)")
    ∧ (runCommand (ProcEvent.timedOut out)).output = out := by
  refine ⟨?_, rfl, rfl, rfl, rfl, rfl⟩
  simp [runCommand]

/--
Claim C9: if `sendStream` completes cleanly but the concatenated
response text is empty, the user message is kept and no assistant
message is appended — the history ends with the user message.
-/
theorem C9_empty_commit (hist : List Msg) (u : String) (chunks : List String)
    (h : String.join chunks = "") :
    sendStream hist u chunks true = hist ++ [⟨Role.user, u⟩]
    ∧ (sendStream hist u chunks true).getLast? = some ⟨Role.user, u⟩ := by
  have h1 : sendStream hist u chunks true = hist ++ [⟨Role.user, u⟩] := by
    simp [sendStream, h]
  exact ⟨h1, by rw [h1]; simp⟩

/-- Witness for C9: an empty clean stream keeps the user turn
uncommitted to any assistant reply. -/
theorem C9_witness :
    sendStream [] ("hi") [] true = [⟨Role.user, "hi"⟩]
    ∧ (sendStream [] ("hi") [] true).getLast? = some ⟨Role.user, "hi"⟩ :=
  C9_empty_commit [] ("hi") [] rfl

/-- Unfolding lemma for `decodeLines` on a data line that yields a
non-empty content delta. -/
theorem decodeLines_cons_yield (parse : Str → Option (Option Str)) (line : Str)
    (rest : List Str) (c : Str)
    (hp : dataPrefixStr.isPrefixOf line = true)
    (hnd : line.drop 6 ≠ doneSentinel)
    (hparse : parse (line.drop 6) = some (some c))
    (hce : c.isEmpty = false) :
    decodeLines parse (line :: rest)
      = (c :: (decodeLines parse rest).1, (decodeLines parse rest).2) := by
  simp [decodeLines, hp, hnd, hparse, hce]

/-- Decoding a concatenation of line lists: the second part contributes
only when the first did not reach the `[DONE]` sentinel. -/
theorem decodeLines_append (parse : Str → Option (Option Str)) (l1 l2 : List Str) :
    decodeLines parse (l1 ++ l2) =
      if (decodeLines parse l1).2 then decodeLines parse l1
      else ((decodeLines parse l1).1 ++ (decodeLines parse l2).1,
            (decodeLines parse l2).2) := by
  induction l1 with
  | nil => simp [decodeLines]
  | cons line rest ih =>
    by_cases hp : dataPrefixStr.isPrefixOf line
    · by_cases hd : line.drop 6 = doneSentinel
      · simp [decodeLines, hp, hd]
      · cases hparse : parse (line.drop 6) with
        | none => simp [decodeLines, hp, hd, hparse, ih]
        | some oc =>
          cases oc with
          | none => simp [decodeLines, hp, hd, hparse, ih]
          | some c =>
            by_cases hce : c.isEmpty
            · simp [decodeLines, hp, hd, hparse, hce, ih]
            · rw [Bool.not_eq_true] at hce
              rw [List.cons_append,
                  decodeLines_cons_yield parse line (rest ++ l2) c hp hd hparse hce,
                  decodeLines_cons_yield parse line rest c hp hd hparse hce, ih]
              by_cases hrest : (decodeLines parse rest).2 <;> simp [hrest]
    · simp [decodeLines, hp, ih]

/-- A `data: ` line whose payload fails to parse is skipped: decoding
the remaining lines proceeds as if the line were absent. -/
theorem decodeLines_skip (parse : Str → Option (Option Str)) (line : Str)
    (post : List Str)
    (hp : dataPrefixStr.isPrefixOf line = true)
    (hbad : parse (line.drop 6) = none)
    (hnd : line.drop 6 ≠ doneSentinel) :
    decodeLines parse (line :: post) = decodeLines parse post := by
  simp [decodeLines, hp, hbad, hnd]

/--
Claim C7: frame-decoder fault tolerance. A `data: ` line whose payload
fails to parse is skipped and decoding continues with the subsequent
lines, with both the emitted deltas and the termination flag unchanged
(so a single malformed frame never ends the delta sequence); and a data
line whose payload is the literal sentinel `[DONE]` terminates decoding.
-/
theorem C7_frame_tolerance (parse : Str → Option (Option Str))
    (pre post : List Str) (line : Str)
    (hp : dataPrefixStr.isPrefixOf line = true)
    (hbad : parse (line.drop 6) = none)
    (hnd : line.drop 6 ≠ doneSentinel) :
    decodeLines parse (pre ++ line :: post) = decodeLines parse (pre ++ post)
    ∧ decodeLines parse ((dataPrefixStr ++ doneSentinel) :: post) = ([], true) := by
  refine ⟨?_, rfl⟩
  rw [decodeLines_append parse pre (line :: post),
      decodeLines_skip parse line post hp hbad hnd,
      ← decodeLines_append parse pre post]

/-- Witness for C7: with a parse function that rejects everything, the
line "data: oops" is skipped and a `[DONE]` line terminates. -/
theorem C7_witness :
    decodeLines (fun _ => (none : Option (Option Str)))
        ([] ++ ("data: oops".toList) :: [])
      = decodeLines (fun _ => (none : Option (Option Str))) ([] ++ [])
    ∧ decodeLines (fun _ => (none : Option (Option Str)))
        ((dataPrefixStr ++ doneSentinel) :: [])
      = ([], true) :=
  C7_frame_tolerance (fun _ => none) [] [] ("data: oops".toList)
    (by decide) rfl (by decide)

/-- Splitting a list around the first element failing a predicate:
`takeWhile` keeps exactly the prefix and `dropWhile` starts at that
element. -/
theorem takeWhile_middle (q : Char → Bool) (l1 : Str) (x : Char) (l2 : Str)
    (h1 : ∀ c ∈ l1, q c = true) (hx : q x = false) :
    (l1 ++ x :: l2).takeWhile q = l1 ∧ (l1 ++ x :: l2).dropWhile q = x :: l2 := by
  induction l1 with
  | nil => simp [List.takeWhile_cons, List.dropWhile_cons, hx]
  | cons a t ih =>
    have ha : q a = true := h1 a (by simp)
    obtain ⟨h2, h3⟩ := ih (fun c hc => h1 c (by simp [hc]))
    simp [List.takeWhile_cons, List.dropWhile_cons, ha, h2, h3]

/-- Soundness of the fence-stripping step. -/
theorem afterFence_sound (s r : Str) (h : afterFence s = some r) :
    s = fenceStr ++ r := by
  unfold afterFence at h
  split at h
  · injection h with h'
    subst h'
    rfl
  · simp at h

/-- Completeness of the fence-stripping step. -/
theorem afterFence_complete (r : Str) : afterFence (fenceStr ++ r) = some r := rfl

/-- Soundness of the tag-reading step. -/
theorem readTag_sound (r1 tag r2 : Str) (h : readTag r1 = some (tag, r2)) :
    r1 = tag ++ ':' :: r2 ∧ tag ≠ [] ∧ (∀ c ∈ tag, isWordChar c = true) := by
  unfold readTag at h
  split at h
  case h_1 r2' heq =>
    by_cases hte : (r1.takeWhile isWordChar).isEmpty
    · rw [if_pos hte] at h; simp at h
    · rw [if_neg hte] at h
      injection h with h'
      injection h' with h1 h2
      subst h1 h2
      refine ⟨?_, ?_, fun c hc => List.mem_takeWhile_imp hc⟩
      · conv_lhs => rw [← List.takeWhile_append_dropWhile isWordChar r1]
        rw [heq]
      · intro hnil
        rw [hnil] at hte
        simp at hte
  case h_2 => simp at h

/-- Completeness of the tag-reading step. -/
theorem readTag_complete (tag r2 : Str) (htag : tag ≠ [])
    (htagw : ∀ c ∈ tag, isWordChar c = true) :
    readTag (tag ++ ':' :: r2) = some (tag, r2) := by
  obtain ⟨e1, e2⟩ := takeWhile_middle isWordChar tag ':' r2 htagw (by decide)
  simp only [readTag, e1, e2]
  simp [List.isEmpty_iff, htag]

/-- Soundness of the path-reading step. -/
theorem readPath_sound (r2 p r3 : Str) (h : readPath r2 = some (p, r3)) :
    r2 = p ++ '\n' :: r3 ∧ p ≠ [] ∧ '\n' ∉ p := by
  unfold readPath at h
  split at h
  case h_1 r3' heq =>
    by_cases hte : (r2.takeWhile (fun c => !(c == '\n'))).isEmpty
    · rw [if_pos hte] at h; simp at h
    · rw [if_neg hte] at h
      injection h with h'
      injection h' with h1 h2
      subst h1 h2
      refine ⟨?_, ?_, ?_⟩
      · conv_lhs => rw [← List.takeWhile_append_dropWhile (fun c => !(c == '\n')) r2]
        rw [heq]
      · intro hnil
        rw [hnil] at hte
        simp at hte
      · intro hmem
        have := List.mem_takeWhile_imp hmem
        simp at this
  case h_2 => simp at h

/-- Completeness of the path-reading step. -/
theorem readPath_complete (p r3 : Str) (hp : p ≠ []) (hpn : '\n' ∉ p) :
    readPath (p ++ '\n' :: r3) = some (p, r3) := by
  obtain ⟨e1, e2⟩ := takeWhile_middle (fun c => !(c == '\n')) p '\n' r3
    (fun c hc => by
      simp only [Bool.not_eq_true', beq_eq_false_iff_ne]
      exact fun heq => hpn (heq ▸ hc))
    (by decide)
  simp only [readPath, e1, e2]
  simp [List.isEmpty_iff, hp]

/-- Soundness of the anchored opening-fence match: a successful
`matchOpenAt` decomposes its input into fence, word-character tag,
colon, newline-free path, newline, and remainder. -/
theorem matchOpenAt_sound (s tag p rest : Str)
    (h : matchOpenAt s = some (tag, p, rest)) :
    s = fenceStr ++ tag ++ ':' :: p ++ '\n' :: rest
    ∧ tag ≠ [] ∧ (∀ c ∈ tag, isWordChar c = true) ∧ p ≠ [] ∧ '\n' ∉ p := by
  cases ha : afterFence s with
  | none => simp [matchOpenAt, ha] at h
  | some r1 =>
    cases ht : readTag r1 with
    | none => simp [matchOpenAt, ha, ht] at h
    | some q =>
      obtain ⟨tag', r2⟩ := q
      cases hpth : readPath r2 with
      | none => simp [matchOpenAt, ha, ht, hpth] at h
      | some q2 =>
        obtain ⟨p', r3⟩ := q2
        simp only [matchOpenAt, ha, ht, hpth, Option.some.injEq,
          Prod.mk.injEq] at h
        obtain ⟨h1, h2, h3⟩ := h
        subst h1 h2 h3
        obtain ⟨e1, ht1, ht2⟩ := readTag_sound r1 tag' r2 ht
        obtain ⟨e2, hp1, hp2⟩ := readPath_sound r2 p' r3 hpth
        have es := afterFence_sound s r1 ha
        refine ⟨?_, ht1, ht2, hp1, hp2⟩
        rw [es, e1, e2]
        simp

/-- Completeness of the anchored opening-fence match at the start of a
well-formed fence. -/
theorem matchOpenAt_complete (tag p post : Str)
    (htag : tag ≠ []) (htagw : ∀ c ∈ tag, isWordChar c = true)
    (hp : p ≠ []) (hpn : '\n' ∉ p) :
    matchOpenAt (fenceStr ++ tag ++ ':' :: p ++ '\n' :: post)
      = some (tag, p, post) := by
  have hs : fenceStr ++ tag ++ ':' :: p ++ '\n' :: post
      = fenceStr ++ (tag ++ ':' :: (p ++ '\n' :: post)) := by simp
  rw [hs]
  simp only [matchOpenAt, afterFence_complete,
    readTag_complete tag (p ++ '\n' :: post) htag htagw,
    readPath_complete p post hp hpn]

/-- Soundness of the leftmost fence search `findOpen`. -/
theorem findOpen_sound (s : Str) : ∀ (pre tag p rest : Str),
    findOpen s = some (pre, tag, p, rest) →
    s = pre ++ fenceStr ++ tag ++ ':' :: p ++ '\n' :: rest
    ∧ tag ≠ [] ∧ (∀ c ∈ tag, isWordChar c = true) ∧ p ≠ [] ∧ '\n' ∉ p := by
  induction s with
  | nil => intro pre tag p rest h; simp [findOpen] at h
  | cons c cs ih =>
    intro pre tag p rest h
    unfold findOpen at h
    cases hm : matchOpenAt (c :: cs) with
    | some q =>
      obtain ⟨tag', p', rest'⟩ := q
      rw [hm] at h
      simp only [Option.some.injEq, Prod.mk.injEq] at h
      obtain ⟨h1, h2, h3, h4⟩ := h
      subst h1 h2 h3 h4
      have := matchOpenAt_sound (c :: cs) tag' p' rest' hm
      simpa using this
    | none =>
      rw [hm] at h
      cases hf : findOpen cs with
      | some q =>
        obtain ⟨pre', tag', p', rest'⟩ := q
        rw [hf] at h
        simp only [Option.some.injEq, Prod.mk.injEq] at h
        obtain ⟨h1, h2, h3, h4⟩ := h
        subst h1 h2 h3 h4
        obtain ⟨e, e2, e3, e4, e5⟩ := ih pre' tag' p' rest' hf
        refine ⟨?_, e2, e3, e4, e5⟩
        rw [e]
        simp
      | none => rw [hf] at h; simp at h

/-- A match anywhere implies the head-position search is not needed:
`findOpen` succeeds whenever an anchored match succeeds at the head. -/
theorem findOpen_isSome_of_match (c : Char) (cs : Str) (q : Str × Str × Str)
    (hm : matchOpenAt (c :: cs) = some q) : (findOpen (c :: cs)).isSome := by
  obtain ⟨t, pq, r⟩ := q
  simp [findOpen, hm]

/-- `findOpen` succeeds on any extension to the left of a buffer on
which it succeeds. -/
theorem findOpen_cons (c : Char) (cs : Str) (h : (findOpen cs).isSome) :
    (findOpen (c :: cs)).isSome := by
  cases hm : matchOpenAt (c :: cs) with
  | some q => exact findOpen_isSome_of_match c cs q hm
  | none =>
    cases hf : findOpen cs with
    | none => rw [hf] at h; simp at h
    | some q => obtain ⟨a, b, d, e⟩ := q; simp [findOpen, hm, hf]

/-- Completeness of the leftmost fence search: a buffer containing a
well-formed opening fence always produces a match. -/
theorem findOpen_complete (pre : Str) (tag p post : Str)
    (htag : tag ≠ []) (htagw : ∀ c ∈ tag, isWordChar c = true)
    (hp : p ≠ []) (hpn : '\n' ∉ p) :
    (findOpen (pre ++ fenceStr ++ tag ++ ':' :: p ++ '\n' :: post)).isSome := by
  induction pre with
  | nil =>
    have hm := matchOpenAt_complete tag p post htag htagw hp hpn
    have hshape : fenceStr ++ tag ++ ':' :: p ++ '\n' :: post
        = '`' :: ('`' :: '`' :: (tag ++ ':' :: (p ++ '\n' :: post))) := by
      simp [fenceStr]
    rw [List.nil_append, hshape]
    rw [hshape] at hm
    exact findOpen_isSome_of_match _ _ _ hm
  | cons c cs ih =>
    have hshape : c :: cs ++ fenceStr ++ tag ++ ':' :: p ++ '\n' :: post
        = c :: (cs ++ fenceStr ++ tag ++ ':' :: p ++ '\n' :: post) := by
      simp
    rw [hshape]
    exact findOpen_cons c _ ih

/-- The extractor's opening-fence search succeeds exactly on buffers
containing a well-formed opening fence. -/
theorem hasOpenFence_iff_findOpen (s : Str) : HasOpenFence s ↔ (findOpen s).isSome := by
  constructor
  · rintro ⟨pre, tag, p, post, hs, htag, htagw, hpne, hpn⟩
    rw [hs]
    exact findOpen_complete pre tag p post htag htagw hpne hpn
  · intro h
    cases hf : findOpen s with
    | none => rw [hf] at h; simp at h
    | some q =>
      obtain ⟨pre, tag, p, rest⟩ := q
      obtain ⟨h1, h2, h3, h4, h5⟩ := findOpen_sound s pre tag p rest hf
      exact ⟨pre, tag, p, rest, h1, h2, h3, h4, h5⟩

/--
Claim C4, counterexample: the text consisting of three backticks, the
language tag "c++" (non-whitespace characters), a colon, the path
"f.cpp" and a newline satisfies the claimed opening pattern, yet while
Scanning the extractor does not transition to InBlock on it — the source
regex only admits `\w` (word) characters in the tag, and '+' is not one.
-/
theorem C4_counterexample :
    SpecOpenFence ("```c++:f.cpp\n".toList)
    ∧ (process initExtractor ("```c++:f.cpp\n".toList)).1.inBlock = false :=
  ⟨⟨[], "c++".toList, "f.cpp".toList, [], by decide, by decide, by decide,
    by decide, by decide⟩, by decide⟩

/--
Claim C4, amended: while Scanning, the extractor transitions to InBlock
exactly when the carry-buffer (with the incoming chunk appended)
contains three backticks followed by a language tag of one or more word
characters (letters, digits or underscore — not arbitrary non-whitespace
characters), a colon, a path of one or more non-newline characters, and
a newline. On a match, the whitespace-trimmed path is captured as the
block's target (the language tag is matched but discarded), the
carry-buffer is replaced by everything after the match, and content
accumulation starts empty.
-/
theorem C4_open_fence_amended (st : ExtractorState) (chunk : Str)
    (h : st.inBlock = false) :
    (((process st chunk).1.inBlock = true) ↔ HasOpenFence (st.buffer ++ chunk))
    ∧ (∀ pre tag p rest, findOpen (st.buffer ++ chunk) = some (pre, tag, p, rest) →
        (process st chunk).1 = ⟨rest, true, trimL p, []⟩
        ∧ (process st chunk).2 = []) := by
  constructor
  · rw [hasOpenFence_iff_findOpen]
    cases hfo : findOpen (st.buffer ++ chunk) with
    | some q =>
      obtain ⟨pre, tag, p, rest⟩ := q
      simp [process, h, hfo]
    | none => simp [process, h, hfo]
  · intro pre tag p rest hfo
    constructor <;> simp [process, h, hfo]

/-- Witness for C4: from a fresh extractor, the chunk
"```py:a.py\nx" opens a block with target "a.py", carry-buffer "x" and
empty accumulated content. -/
theorem C4_witness :
    HasOpenFence (initExtractor.buffer ++ ("```py:a.py\nx".toList))
    ∧ (process initExtractor ("```py:a.py\nx".toList)).1
        = ⟨"x".toList, true, trimL ("a.py".toList), []⟩ :=
  ⟨((C4_open_fence_amended initExtractor ("```py:a.py\nx".toList) rfl).1).mp
      (by decide),
   ((C4_open_fence_amended initExtractor ("```py:a.py\nx".toList) rfl).2
      [] ("py".toList) ("a.py".toList) ("x".toList) (by decide)).1⟩

/-- `splitOnChar` never returns the empty list. -/
theorem splitOnChar_ne_nil (sep : Char) (s : Str) : splitOnChar sep s ≠ [] := by
  cases s with
  | nil => simp [splitOnChar]
  | cons c cs =>
    unfold splitOnChar
    cases h : splitOnChar sep cs with
    | nil => simp
    | cons hd tl => by_cases hc : c == sep <;> simp [hc]

/-- Unfolding lemma for `joinChar` on a list with at least two parts. -/
theorem joinChar_cons (sep : Char) (x : Str) (l : List Str) (h : l ≠ []) :
    joinChar sep (x :: l) = x ++ sep :: joinChar sep l := by
  cases l with
  | nil => exact absurd rfl h
  | cons y ys => rfl

/-- Joining the parts of a split reconstructs the original string. -/
theorem join_split (sep : Char) (s : Str) :
    joinChar sep (splitOnChar sep s) = s := by
  induction s with
  | nil => rfl
  | cons c cs ih =>
    unfold splitOnChar
    cases h : splitOnChar sep cs with
    | nil => exact absurd h (splitOnChar_ne_nil sep cs)
    | cons hd tl =>
      rw [h] at ih
      by_cases hc : c == sep
      · simp only [h, if_pos hc]
        rw [joinChar_cons sep [] (hd :: tl) (by simp)]
        simp only [List.nil_append]
        rw [ih, eq_of_beq hc]
      · simp only [h, if_neg hc]
        cases tl with
        | nil =>
          simp only [joinChar] at ih ⊢
          rw [ih]
        | cons t2 ts =>
          rw [joinChar_cons sep (c :: hd) (t2 :: ts) (by simp), List.cons_append]
          rw [joinChar_cons sep hd (t2 :: ts) (by simp)] at ih
          rw [ih]

/-- Splitting a string whose first separator occurrence follows a
separator-free prefix yields that prefix as the first part. -/
theorem splitOnChar_append (sep : Char) (l r : Str)
    (h : ∀ c ∈ l, (c == sep) = false) :
    splitOnChar sep (l ++ sep :: r) = l :: splitOnChar sep r := by
  induction l with
  | nil =>
    simp only [List.nil_append]
    conv_lhs => rw [splitOnChar]
    cases hs : splitOnChar sep r with
    | nil => exact absurd hs (splitOnChar_ne_nil sep r)
    | cons hd tl => simp
  | cons a l' ih =>
    have ha : (a == sep) = false := h a (by simp)
    simp only [List.cons_append]
    conv_lhs => rw [splitOnChar]
    rw [ih (fun c hc => h c (by simp [hc]))]
    simp [ha]

/-- Splitting a separator-free string yields a single part. -/
theorem splitOnChar_noSep (sep : Char) (l : Str)
    (h : ∀ c ∈ l, (c == sep) = false) :
    splitOnChar sep l = [l] := by
  induction l with
  | nil => rfl
  | cons a l' ih =>
    have ha : (a == sep) = false := h a (by simp)
    conv_lhs => rw [splitOnChar]
    rw [ih (fun c hc => h c (by simp [hc]))]
    simp [ha]

/--
Claim C10, counterexample: for the input "/q" followed by a tab and
"hello", the claim (match the first whitespace-delimited token — the
behaviour of `resolveCommandSpec`) yields "/quit" followed by the tab
and "hello", but `resolveCommand` splits on the space character only,
finds no alias for the whole string, and returns the input unchanged.
-/
theorem C10_counterexample :
    resolveCommandSpec ("/q\thello".toList) = "/quit\thello".toList
    ∧ resolveCommand ("/q\thello".toList) = "/q\thello".toList
    ∧ ("/quit\thello".toList : Str) ≠ "/q\thello".toList := by
  decide

/--
Claim C10, amended: `resolveCommand` matches the input's first
space-delimited field (the prefix before the first space character —
tabs and other whitespace are not delimiters), lowercased, against the
alias table; on a match that field is replaced by the full command and
the remainder of the input after the first space is preserved
unchanged; when the lookup misses, the entire input is returned
unchanged, original casing included.
-/
theorem C10_alias_amended (cmd rest full : Str)
    (hnosp : ∀ c ∈ cmd, (c == ' ') = false)
    (hfull : commandAliases.lookup (toLowerL cmd) = some full) :
    resolveCommand (cmd ++ ' ' :: rest) = full ++ ' ' :: rest
    ∧ resolveCommand cmd = full
    ∧ (∀ input : Str,
        commandAliases.lookup (toLowerL ((splitOnChar ' ' input).headD [])) = none →
        resolveCommand input = input) := by
  refine ⟨?_, ?_, ?_⟩
  · unfold resolveCommand
    rw [splitOnChar_append ' ' cmd rest hnosp]
    simp only [hfull]
    rw [joinChar_cons ' ' full _ (splitOnChar_ne_nil ' ' rest), join_split]
  · unfold resolveCommand
    rw [splitOnChar_noSep ' ' cmd hnosp]
    simp only [hfull]
    rfl
  · intro input hnone
    unfold resolveCommand
    cases hs : splitOnChar ' ' input with
    | nil => simp
    | cons c0 rest' =>
      rw [hs] at hnone
      simp only [List.headD_cons] at hnone
      simp [hnone]

/-- Witness for C10: "/Q hello world" resolves to "/quit hello world"
(first space-delimited field lowercased and replaced, remainder kept). -/
theorem C10_witness :
    resolveCommand ("/Q".toList ++ ' ' :: "hello world".toList)
      = "/quit".toList ++ ' ' :: "hello world".toList :=
  (C10_alias_amended ("/Q".toList) ("hello world".toList) ("/quit".toList)
    (by decide) (by decide)).1

end Cody
